import Mathlib

/-!
Verification development for the static-content generator in
`server/scripts/generateArticles.js` (PlateUp.pro article pipeline).

The script is a one-shot batch job: load (or initialize) a configuration,
load any prior article index, iterate `(category, item-title)` pairs,
slugify each title, skip slugs already present, otherwise write an HTML
file and append a summary record, and finally write the updated index.

The JavaScript is embedded shallowly below:
* strings are Lean `String`s (lists of characters); the regular-expression
  classes `\w` and `\s` and `String.prototype.toLowerCase`/`trim` are
  embedded at the character level (`toLowerCase` via `Char.toLower`, which
  agrees with the JavaScript function exactly on ASCII characters but drops
  its non-ASCII case mappings, e.g. U+212A KELVIN SIGN lowercasing to `k`;
  universal statements whose truth would depend on those mappings are
  therefore stated for ASCII inputs only);
* the nondeterministic inputs of record creation (`Date.now()`,
  `Math.random()`) are an explicit environment `Env`, indexed by the number
  of records created so far in the run;
* file-system effects are explicit: the per-run list of article files
  written, the index contents written at the end, and a small `FS` state
  describing what the two input files (`source.json`, `articles.json`)
  contain at the start of the run.
-/

namespace PlateUp

/-- JavaScript regular-expression class `\s` (whitespace), as used in
`slugify`'s `/[^\w\s-]/g` and `/\s+/g`; also the character set stripped by
`String.prototype.trim`. -/
def jsIsSpace (c : Char) : Bool :=
  let n := c.toNat
  decide (9 ≤ n ∧ n ≤ 13) || decide (n = 32) || decide (n = 160) ||
  decide (n = 0x1680) || decide (0x2000 ≤ n ∧ n ≤ 0x200A) ||
  decide (n = 0x2028) || decide (n = 0x2029) || decide (n = 0x202F) ||
  decide (n = 0x205F) || decide (n = 0x3000) || decide (n = 0xFEFF)

/-- JavaScript regular-expression class `\w`: `[A-Za-z0-9_]`. -/
def jsIsWordChar (c : Char) : Bool :=
  let n := c.toNat
  decide (97 ≤ n ∧ n ≤ 122) || decide (65 ≤ n ∧ n ≤ 90) ||
  decide (48 ≤ n ∧ n ≤ 57) || decide (n = 95)

/-- The characters kept by `.replace(/[^\w\s-]/g, '')`. -/
def keepChar (c : Char) : Bool :=
  jsIsWordChar c || jsIsSpace c || c == '-'

/-- One global regex replacement `.replace(/p+/g, r)`: each maximal run of
characters satisfying `p` is replaced by the single character `r`.
`inRun` records whether the previous character was part of a run. -/
def squashRuns (p : Char → Bool) (r : Char) : Bool → List Char → List Char
  | _, [] => []
  | inRun, c :: cs =>
    if p c then
      if inRun then squashRuns p r true cs
      else r :: squashRuns p r true cs
    else
      c :: squashRuns p r false cs

/-- `String.prototype.trim`: drop leading and trailing whitespace. -/
def jsTrim (l : List Char) : List Char :=
  ((l.dropWhile jsIsSpace).reverse.dropWhile jsIsSpace).reverse

/-- Character-list core of `slugify` from `generateArticles.js`: lowercase,
strip the characters outside `\w`, `\s` and hyphen, trim, replace each
whitespace run by one hyphen, then collapse hyphen runs to one hyphen. -/
def slugifyCore (l : List Char) : List Char :=
  squashRuns (fun c => c == '-') '-' false
    (squashRuns jsIsSpace '-' false
      (jsTrim ((l.map Char.toLower).filter keepChar)))

/-- `slugify` from `generateArticles.js`. -/
def slugify (s : String) : String :=
  ⟨slugifyCore s.data⟩

example : slugify "Cheap Chicken Rice" = "cheap-chicken-rice" := by decide
example : slugify "Beans & Pasta!" = "beans-pasta" := by decide
example : slugify "  --A  b--c  " = "-a-b-c" := by decide
example : slugify "!!!" = "" := by decide

/-- JavaScript `s.slice(0, n)` on a string: the first `n` characters. -/
def strTake (s : String) (n : Nat) : String :=
  ⟨s.data.take n⟩

/-- The three placeholder fields produced by `buildRecipe` (the spec calls
this operation `buildPlaceholderContent`). -/
structure Recipe where
  intro : String
  ingredients : List String
  steps : List String
deriving DecidableEq, Repr

/-- `buildRecipe(title)` from `generateArticles.js` (the apostrophe of the
source text is `introApos`). -/
def introApos : String := ⟨[Char.ofNat 39]⟩

/-- The fixed tail of the generated introduction sentence. -/
def introTail : String :=
  " is a simple, budget-friendly recipe you" ++ introApos ++
  "ll love. Quick to prepare and packed with flavor."

/-- `buildRecipe(title)`: intro sentence interpolating the title, six fixed
ingredient strings, five fixed instruction strings. -/
def buildRecipe (title : String) : Recipe where
  intro := title ++ introTail
  ingredients :=
    [ "1 cup rice or pasta (or as needed)"
    , "200g protein (chicken, tuna, beans)"
    , "1 tbsp olive oil"
    , "1 garlic clove, minced"
    , "Salt and pepper to taste"
    , "Optional: herbs, lemon, chili flakes" ]
  steps :=
    [ "Prepare ingredients and season the protein."
    , "Heat oil in a pan, sauté garlic until fragrant."
    , "Add protein and cook until done."
    , "Add rice/pasta and combine, adjust seasoning."
    , "Serve hot with a lemon wedge or fresh herbs." ]

/-- One category of the source configuration: `name` (the script substitutes
`"General"` for a missing or empty name via `cat.name || "General"`) and
`items` (missing items default to the empty list via `cat.items || []`). -/
structure Category where
  name : String
  items : List String
deriving DecidableEq, Repr

/-- The source configuration `source.json`: `domain` (missing defaults to
`""` via `src.domain || ""`) and `categories` (missing defaults to `[]`). -/
structure SourceConfig where
  domain : String
  categories : List Category
deriving DecidableEq, Repr

/-- One record of the persisted index `articles.json`, exactly the object
pushed onto `articlesList`. -/
structure ArticleRecord where
  id : String
  slug : String
  title : String
  category : String
  excerpt : String
  path : String
  ts : Nat
deriving DecidableEq, Repr

/-- The nondeterministic inputs of record creation (`Date.now()` plus
`Math.random()` for `meta.id`, `Date.now()` for `meta.ts`), indexed by the
number of records created so far in the current run. -/
structure Env where
  freshId : Nat → String
  freshTs : Nat → Nat

/-- The in-memory `meta` object built for a new item. -/
structure Meta where
  id : String
  title : String
  slug : String
  category : String
  thumb : String
  excerpt : String
  canonical : String
  ts : Nat
deriving DecidableEq, Repr

/-- The `meta` object of `generateArticles.js` for the `k`-th newly created
record of the run. -/
def mkMeta (env : Env) (k : Nat) (domain catName title : String) : Meta where
  id := env.freshId k
  title := title
  slug := slugify title
  category := catName
  thumb := ""
  excerpt := strTake (buildRecipe title).intro 140
  canonical :=
    if domain == "" then "/articles/" ++ slugify title ++ ".html"
    else domain ++ "/articles/" ++ slugify title ++ ".html"
  ts := env.freshTs k

/-- The record pushed onto `articlesList` (a projection of `meta` plus the
relative `path`). -/
def pushedRecord (m : Meta) : ArticleRecord where
  id := m.id
  slug := m.slug
  title := m.title
  category := m.category
  excerpt := m.excerpt
  path := "articles/" ++ m.slug ++ ".html"
  ts := m.ts

/-- `articlesList.find(a => a.slug === slug)` succeeds. -/
def hasSlug (acc : List ArticleRecord) (slug : String) : Bool :=
  acc.any (fun a => a.slug == slug)

/-- The flattened iteration order of the main loop: for each category in
order, for each item in order, the pair `(catName, title)` with the
`cat.name || "General"` default applied. -/
def configItems (cfg : SourceConfig) : List (String × String) :=
  cfg.categories.flatMap (fun cat =>
    cat.items.map (fun t => (if cat.name == "" then "General" else cat.name, t)))

/-- State threaded through the main loop: the accumulated `articlesList`,
the article file names written so far this run (relative to the articles
output directory, in write order), and the number of records created so far
this run (the index into `Env`). -/
structure ItemsState where
  acc : List ArticleRecord
  writes : List String
  fresh : Nat
deriving Repr

/-- The body of the main loop of `generateArticles.js` over the remaining
`(catName, title)` pairs: skip when the slug is already present, otherwise
write `<slug>.html` and append the pushed record. -/
def runItems (env : Env) (domain : String) :
    List (String × String) → ItemsState → ItemsState
  | [], st => st
  | (catName, title) :: rest, st =>
    if hasSlug st.acc (slugify title) then
      runItems env domain rest st
    else
      runItems env domain rest
        { acc := st.acc ++ [pushedRecord (mkMeta env st.fresh domain catName title)]
        , writes := st.writes ++ [slugify title ++ ".html"]
        , fresh := st.fresh + 1 }

/-- Observable outcome of one run of the loop: the final `articlesList`
(written to the index at the end of the run) and the article files written. -/
structure RunResult where
  list : List ArticleRecord
  writes : List String
deriving Repr

/-- One run of the pipeline proper, given a parsed configuration and the
prior index list: iterate all items starting from the prior list, no files
written yet, zero records created. -/
def runPipeline (env : Env) (cfg : SourceConfig) (prior : List ArticleRecord) :
    RunResult :=
  let st := runItems env cfg.domain (configItems cfg) ⟨prior, [], 0⟩
  ⟨st.acc, st.writes⟩

/-- Parse state of an input file at the start of the run: absent, present
but unparsable, or parsed to a value. -/
inductive FileState (α : Type) where
  | missing
  | corrupt
  | parsed (v : α)
deriving DecidableEq, Repr

/-- What the two input files contain at the start of the run.  For the index
file, `parsed none` is the case where the JSON parses but `old.list` is not
an array (`Array.isArray(old.list)` fails). -/
structure FS where
  sourceFile : FileState SourceConfig
  indexFile : FileState (Option (List ArticleRecord))
deriving Repr

/-- The prior-index load: `articlesList` starts as `old.list.slice()` when
the index file exists, parses, and its `list` is an array; otherwise it
starts empty (missing file, parse error, or non-array `list` are all
tolerated). -/
def loadPrior (fs : FS) : List ArticleRecord :=
  match fs.indexFile with
  | .parsed (some l) => l
  | _ => []

/-- The observable outcome of a whole run of the script. -/
structure RunOutput where
  exitCode : Nat
  sourceWritten : Bool
  articleWrites : List String
  indexWritten : Option (List ArticleRecord)
deriving Repr

/-- The default configuration written to `source.json` when it is missing. -/
def defaultSrc : SourceConfig where
  domain := "https://plateup.pro"
  categories :=
    [ { name := "Budget Cooking"
      , items :=
          [ "Cheap Chicken Rice"
          , "Beans Pasta"
          , "Eggs on Toast"
          , "Budget Chili"
          , "Tuna Wrap" ] } ]

/-- The top-level script: write the default `source.json` when missing;
abort with exit status 1 (nothing written) when `source.json` exists but
does not parse; otherwise load the prior index tolerantly, run the loop,
and write the accumulated list to the index file, exiting with status 0. -/
def mainRun (env : Env) (fs : FS) : RunOutput :=
  match fs.sourceFile with
  | .corrupt =>
    { exitCode := 1, sourceWritten := false, articleWrites := []
    , indexWritten := none }
  | .missing =>
    let r := runPipeline env defaultSrc (loadPrior fs)
    { exitCode := 0, sourceWritten := true, articleWrites := r.writes
    , indexWritten := some r.list }
  | .parsed cfg =>
    let r := runPipeline env cfg (loadPrior fs)
    { exitCode := 0, sourceWritten := false, articleWrites := r.writes
    , indexWritten := some r.list }

/-- A fixed concrete environment used in concrete test runs. -/
def constEnv : Env where
  freshId := fun _ => "id0"
  freshTs := fun _ => 0

/-- Scenario configuration: two categories both containing an item titled
"Tuna Wrap". -/
def tunaCfg : SourceConfig :=
  ⟨"", [⟨"Lunch", ["Tuna Wrap"]⟩, ⟨"Dinner", ["Tuna Wrap"]⟩]⟩

/-- Scenario configuration A: one category with one item. -/
def cfgA : SourceConfig := ⟨"", [⟨"Budget", ["Eggs on Toast"]⟩]⟩

/-- Scenario configuration: A plus one new item (appended as a further
category). -/
def cfgA' : SourceConfig :=
  ⟨"", [⟨"Budget", ["Eggs on Toast"]⟩, ⟨"Budget", ["Tuna Wrap"]⟩]⟩

/-- Scenario configuration with empty `categories`. -/
def emptyCatCfg : SourceConfig := ⟨"", []⟩

/-- A sample pre-existing index record (as a prior run could have produced
it). -/
def oldRec : ArticleRecord :=
  ⟨"idOld", "old-slug", "Old", "Budget Cooking"
  , "Old is a recipe.", "articles/old-slug.html", 7⟩

/-- The per-record excerpt invariant: at most 140 characters, and a prefix
of the introduction sentence generated for the record's title. -/
def excerptOK (r : ArticleRecord) : Prop :=
  r.excerpt.data.length ≤ 140 ∧ r.excerpt.data <+: (buildRecipe r.title).intro.data

instance (r : ArticleRecord) : Decidable (excerptOK r) := by
  unfold excerptOK
  infer_instance

/-- No two adjacent characters of the list both satisfy `p`. -/
def noAdj (p : Char → Bool) : List Char → Bool
  | [] => true
  | [_] => true
  | a :: b :: rest => !(p a && p b) && noAdj p (b :: rest)

theorem noAdj_of_cons {p : Char → Bool} {c : Char} {rest : List Char}
    (h : noAdj p (c :: rest) = true) : noAdj p rest = true := by
  cases rest with
  | nil => rfl
  | cons d ds => exact (Bool.and_eq_true ..).mp h |>.2

theorem noAdj_cons_of {p : Char → Bool} {c : Char} {rest : List Char}
    (h1 : noAdj p rest = true)
    (h2 : ∀ d ds, rest = d :: ds → (p c && p d) = false) :
    noAdj p (c :: rest) = true := by
  cases rest with
  | nil => rfl
  | cons d ds => simp [noAdj, h1, h2 d ds rfl]

theorem mem_squashRuns {p : Char → Bool} {r : Char} :
    ∀ {b : Bool} {l : List Char} {c : Char},
      c ∈ squashRuns p r b l → c = r ∨ (c ∈ l ∧ p c = false)
  | _, [], _, h => absurd h (List.not_mem_nil _)
  | b, x :: xs, c, h => by
    by_cases hx : p x = true
    · cases b with
      | true =>
        simp only [squashRuns, hx, if_pos] at h
        rcases mem_squashRuns h with h' | ⟨hm, hp⟩
        · exact Or.inl h'
        · exact Or.inr ⟨List.mem_cons_of_mem _ hm, hp⟩
      | false =>
        simp only [squashRuns, hx, if_pos] at h
        rcases List.mem_cons.mp h with h' | h'
        · exact Or.inl h'
        · rcases mem_squashRuns h' with h'' | ⟨hm, hp⟩
          · exact Or.inl h''
          · exact Or.inr ⟨List.mem_cons_of_mem _ hm, hp⟩
    · rw [Bool.not_eq_true] at hx
      simp only [squashRuns, hx, Bool.false_eq_true, if_neg, not_false_iff] at h
      rcases List.mem_cons.mp h with h' | h'
      · exact Or.inr ⟨h' ▸ List.mem_cons_self _ _, h' ▸ hx⟩
      · rcases mem_squashRuns h' with h'' | ⟨hm, hp⟩
        · exact Or.inl h''
        · exact Or.inr ⟨List.mem_cons_of_mem _ hm, hp⟩

theorem squashRuns_of_none {p : Char → Bool} {r : Char} :
    ∀ (b : Bool) (l : List Char), (∀ c ∈ l, p c = false) →
      squashRuns p r b l = l
  | _, [], _ => rfl
  | b, x :: xs, h => by
    have hx : p x = false := h x (List.mem_cons_self _ _)
    simp only [squashRuns, hx, Bool.false_eq_true, if_neg, not_false_iff]
    exact congrArg _ (squashRuns_of_none false xs fun c hc => h c (List.mem_cons_of_mem _ hc))

theorem squashRuns_true_head {p : Char → Bool} {r : Char} :
    ∀ l : List Char, squashRuns p r true l = [] ∨
      ∃ d ds, squashRuns p r true l = d :: ds ∧ p d = false
  | [] => Or.inl rfl
  | x :: xs => by
    by_cases hx : p x = true
    · simp only [squashRuns, hx, if_pos]
      exact squashRuns_true_head xs
    · rw [Bool.not_eq_true] at hx
      simp only [squashRuns, hx, Bool.false_eq_true, if_neg, not_false_iff]
      exact Or.inr ⟨x, _, rfl, hx⟩

theorem noAdj_squashRuns {p : Char → Bool} {r : Char} (hr : p r = true) :
    ∀ (b : Bool) (l : List Char), noAdj p (squashRuns p r b l) = true
  | _, [] => rfl
  | b, x :: xs => by
    by_cases hx : p x = true
    · cases b with
      | true =>
        simp only [squashRuns, hx, if_pos]
        exact noAdj_squashRuns hr true xs
      | false =>
        simp only [squashRuns, hx, if_pos]
        refine noAdj_cons_of (noAdj_squashRuns hr true xs) ?_
        intro d ds hds
        rcases squashRuns_true_head (p := p) (r := r) xs with h | ⟨d', ds', hd, hpd⟩
        · rw [h] at hds; exact absurd hds (List.cons_ne_nil _ _).symm
        · rw [hd] at hds
          cases hds
          simp [hpd]
    · rw [Bool.not_eq_true] at hx
      simp only [squashRuns, hx, Bool.false_eq_true, if_neg, not_false_iff]
      refine noAdj_cons_of (noAdj_squashRuns hr false xs) ?_
      intro d ds _
      simp [hx]

theorem squashRuns_cons_hit {p : Char → Bool} {r x : Char} {xs : List Char}
    (hx : p x = true) :
    squashRuns p r false (x :: xs) = r :: squashRuns p r true xs := by
  simp [squashRuns, hx]

theorem squashRuns_cons_copy {p : Char → Bool} {r x : Char} {xs : List Char}
    (b : Bool) (hx : p x = false) :
    squashRuns p r b (x :: xs) = x :: squashRuns p r false xs := by
  cases b <;> simp [squashRuns, hx]

theorem squashRuns_fixed {p : Char → Bool} {r : Char}
    (hp : ∀ c, p c = true → c = r) :
    ∀ l : List Char, noAdj p l = true →
      squashRuns p r false l = l ∧
      (∀ hd tl, l = hd :: tl → p hd = false → squashRuns p r true l = l)
  | [], _ => ⟨rfl, fun hd tl h => absurd h (List.cons_ne_nil _ _).symm⟩
  | x :: xs, h => by
    have hxs : noAdj p xs = true := noAdj_of_cons h
    constructor
    · by_cases hx : p x = true
      · have hxr : x = r := hp x hx
        rw [squashRuns_cons_hit hx]
        cases xs with
        | nil => rw [hxr]; rfl
        | cons d ds =>
          have h1 := (Bool.and_eq_true ..).mp h |>.1
          rw [hx] at h1
          have hpd : p d = false := by simpa using h1
          rw [(squashRuns_fixed hp (d :: ds) hxs).2 d ds rfl hpd, hxr]
      · rw [Bool.not_eq_true] at hx
        rw [squashRuns_cons_copy false hx]
        exact congrArg _ (squashRuns_fixed hp xs hxs).1
    · intro hd tl heq hphd
      cases heq
      rw [squashRuns_cons_copy true hphd]
      exact congrArg _ (squashRuns_fixed hp xs hxs).1

theorem dropWhile_of_none {α : Type} {p : α → Bool} :
    ∀ l : List α, (∀ c ∈ l, p c = false) → l.dropWhile p = l
  | [], _ => rfl
  | x :: xs, h => by
    simp [List.dropWhile_cons, h x (List.mem_cons_self _ _)]

theorem map_eq_self_of {α : Type} {f : α → α} :
    ∀ l : List α, (∀ c ∈ l, f c = c) → l.map f = l
  | [], _ => rfl
  | x :: xs, h => by
    simp only [List.map_cons, h x (List.mem_cons_self _ _)]
    exact congrArg _ (map_eq_self_of xs fun c hc => h c (List.mem_cons_of_mem _ hc))

theorem mem_jsTrim {c : Char} {l : List Char} (h : c ∈ jsTrim l) : c ∈ l := by
  unfold jsTrim at h
  rw [List.mem_reverse] at h
  have h1 := (List.dropWhile_sublist jsIsSpace).subset h
  rw [List.mem_reverse] at h1
  exact (List.dropWhile_sublist jsIsSpace).subset h1

theorem jsTrim_of_none {l : List Char} (h : ∀ c ∈ l, jsIsSpace c = false) :
    jsTrim l = l := by
  unfold jsTrim
  rw [dropWhile_of_none l h, dropWhile_of_none _ (fun c hc => h c (List.mem_reverse.mp hc)),
    List.reverse_reverse]

theorem char_toNat_ofNat {n : Nat} (h : n.isValidChar) :
    (Char.ofNat n).toNat = n := by
  unfold Char.ofNat
  rw [dif_pos h]
  rfl

theorem toLower_eq_of_not_upper {c : Char}
    (h : ¬(65 ≤ c.toNat ∧ c.toNat ≤ 90)) : Char.toLower c = c := by
  unfold Char.toLower
  rw [if_neg h]

theorem toLower_toNat_not_upper (c : Char) :
    ¬(65 ≤ (Char.toLower c).toNat ∧ (Char.toLower c).toNat ≤ 90) := by
  by_cases h : 65 ≤ c.toNat ∧ c.toNat ≤ 90
  · unfold Char.toLower
    rw [if_pos h]
    have hv : (c.toNat + 32).isValidChar := Or.inl (by omega)
    rw [char_toNat_ofNat hv]
    omega
  · rw [toLower_eq_of_not_upper h]
    exact h

theorem toLower_idem (c : Char) :
    Char.toLower (Char.toLower c) = Char.toLower c :=
  toLower_eq_of_not_upper (toLower_toNat_not_upper c)

/-- Characters surviving to the output of `slugifyCore`: either the hyphen
introduced or kept by the two replacement passes, or a kept word character
that is already lower-cased and is neither whitespace nor a hyphen. -/
theorem mem_slugifyCore {c : Char} {l : List Char} (h : c ∈ slugifyCore l) :
    c = '-' ∨ (jsIsWordChar c = true ∧ jsIsSpace c = false ∧
      Char.toLower c = c ∧ (c == '-') = false) := by
  rcases mem_squashRuns h with h1 | ⟨h1, hnh⟩
  · exact Or.inl h1
  · rcases mem_squashRuns h1 with h2 | ⟨h2, hns⟩
    · exact Or.inl h2
    · have h3 : c ∈ (l.map Char.toLower).filter keepChar := mem_jsTrim h2
      have hkeep : keepChar c = true := List.mem_filter.mp h3 |>.2
      have hmap : c ∈ l.map Char.toLower := List.mem_filter.mp h3 |>.1
      rcases List.mem_map.mp hmap with ⟨x, _, hx⟩
      have hfix : Char.toLower c = c := by rw [← hx, toLower_idem]
      have hword : jsIsWordChar c = true := by
        unfold keepChar at hkeep
        rcases Bool.or_eq_true .. |>.mp hkeep with h' | h'
        · rcases Bool.or_eq_true .. |>.mp h' with h'' | h''
          · exact h''
          · rw [h''] at hns; exact absurd hns (by simp)
        · rw [h'] at hnh; exact absurd hnh (by simp)
      exact Or.inr ⟨hword, hns, hfix, hnh⟩

/-- `slugifyCore` is idempotent: each of its five stages fixes its own
output. -/
theorem slugifyCore_idem (l : List Char) :
    slugifyCore (slugifyCore l) = slugifyCore l := by
  have hchar := fun c (hc : c ∈ slugifyCore l) => mem_slugifyCore hc
  have hlower : ∀ c ∈ slugifyCore l, Char.toLower c = c := by
    intro c hc
    rcases hchar c hc with h | ⟨_, _, h, _⟩
    · rw [h]; rfl
    · exact h
  have hkeep : ∀ c ∈ slugifyCore l, keepChar c = true := by
    intro c hc
    rcases hchar c hc with h | ⟨h, _, _, _⟩
    · rw [h]; rfl
    · unfold keepChar; rw [h]; rfl
  have hnospace : ∀ c ∈ slugifyCore l, jsIsSpace c = false := by
    intro c hc
    rcases hchar c hc with h | ⟨_, h, _, _⟩
    · rw [h]; rfl
    · exact h
  have hnoadj : noAdj (fun c => c == '-') (slugifyCore l) = true := by
    show noAdj (fun c => c == '-')
      (squashRuns (fun c => c == '-') '-' false
        (squashRuns jsIsSpace '-' false
          (jsTrim ((l.map Char.toLower).filter keepChar)))) = true
    exact noAdj_squashRuns (by rfl) false _
  have hdef : ∀ m : List Char, slugifyCore m =
      squashRuns (fun c => c == '-') '-' false
        (squashRuns jsIsSpace '-' false
          (jsTrim ((m.map Char.toLower).filter keepChar))) := fun _ => rfl
  rw [hdef (slugifyCore l), map_eq_self_of _ hlower,
    List.filter_eq_self.mpr hkeep, jsTrim_of_none hnospace,
    squashRuns_of_none false _ hnospace,
    (squashRuns_fixed (fun c hc => by simpa using hc) _ hnoadj).1]

theorem hasSlug_iff {acc : List ArticleRecord} {s : String} :
    hasSlug acc s = true ↔ s ∈ acc.map ArticleRecord.slug := by
  unfold hasSlug
  rw [List.any_eq_true]
  constructor
  · rintro ⟨a, ha, he⟩
    exact List.mem_map.mpr ⟨a, ha, beq_iff_eq.mp he⟩
  · intro h
    rcases List.mem_map.mp h with ⟨a, ha, he⟩
    exact ⟨a, ha, beq_iff_eq.mpr he⟩

theorem runItems_shape (env : Env) (domain : String) :
    ∀ (items : List (String × String)) (st : ItemsState),
      ∃ tl tw, (runItems env domain items st).acc = st.acc ++ tl ∧
        (runItems env domain items st).writes = st.writes ++ tw
  | [], st => ⟨[], [], by simp [runItems], by simp [runItems]⟩
  | (catName, title) :: rest, st => by
    by_cases hs : hasSlug st.acc (slugify title) = true
    · simp only [runItems, hs, if_pos]
      exact runItems_shape env domain rest st
    · rw [Bool.not_eq_true] at hs
      simp only [runItems, hs, Bool.false_eq_true, if_neg, not_false_iff]
      rcases runItems_shape env domain rest
        ⟨st.acc ++ [pushedRecord (mkMeta env st.fresh domain catName title)]
        , st.writes ++ [slugify title ++ ".html"], st.fresh + 1⟩ with ⟨tl, tw, h1, h2⟩
      refine ⟨[pushedRecord (mkMeta env st.fresh domain catName title)] ++ tl
        , [slugify title ++ ".html"] ++ tw, ?_, ?_⟩
      · rw [h1]; exact List.append_assoc ..
      · rw [h2]; exact List.append_assoc ..

theorem slug_mem_runItems {env : Env} {domain s : String}
    {items : List (String × String)} {st : ItemsState}
    (h : s ∈ st.acc.map ArticleRecord.slug) :
    s ∈ (runItems env domain items st).acc.map ArticleRecord.slug := by
  rcases runItems_shape env domain items st with ⟨tl, _, ha, _⟩
  rw [ha, List.map_append]
  exact List.mem_append_left _ h

theorem runItems_covers (env : Env) (domain : String) :
    ∀ (items : List (String × String)) (st : ItemsState),
      ∀ p ∈ items,
        slugify p.2 ∈ (runItems env domain items st).acc.map ArticleRecord.slug
  | [], _ => by intro p hp; exact absurd hp (List.not_mem_nil p)
  | (catName, title) :: rest, st => by
    intro p hp
    by_cases hs : hasSlug st.acc (slugify title) = true
    · simp only [runItems, hs, if_pos]
      rcases List.mem_cons.mp hp with h | h
      · subst h
        exact slug_mem_runItems (hasSlug_iff.mp hs)
      · exact runItems_covers env domain rest st p h
    · rw [Bool.not_eq_true] at hs
      simp only [runItems, hs, Bool.false_eq_true, if_neg, not_false_iff]
      rcases List.mem_cons.mp hp with h | h
      · subst h
        refine slug_mem_runItems ?_
        rw [List.map_append]
        refine List.mem_append_right _ ?_
        show slugify title ∈ [slugify title]
        exact List.mem_singleton.mpr rfl
      · exact runItems_covers env domain rest _ p h

theorem runItems_noop (env : Env) (domain : String) :
    ∀ (items : List (String × String)) (st : ItemsState),
      (∀ p ∈ items, slugify p.2 ∈ st.acc.map ArticleRecord.slug) →
      runItems env domain items st = st
  | [], _, _ => rfl
  | (catName, title) :: rest, st, h => by
    have hs : hasSlug st.acc (slugify title) = true :=
      hasSlug_iff.mpr (h (catName, title) (List.mem_cons_self _ _))
    simp only [runItems, hs, if_pos]
    exact runItems_noop env domain rest st
      (fun p hp => h p (List.mem_cons_of_mem _ hp))

theorem runItems_append (env : Env) (domain : String) :
    ∀ (i1 i2 : List (String × String)) (st : ItemsState),
      runItems env domain (i1 ++ i2) st =
        runItems env domain i2 (runItems env domain i1 st)
  | [], _, _ => rfl
  | (catName, title) :: rest, i2, st => by
    by_cases hs : hasSlug st.acc (slugify title) = true
    · simp only [List.cons_append, runItems, hs, if_pos]
      exact runItems_append env domain rest i2 st
    · rw [Bool.not_eq_true] at hs
      simp only [List.cons_append, runItems, hs, Bool.false_eq_true, if_neg,
        not_false_iff]
      exact runItems_append env domain rest i2 _

theorem runItems_nodup (env : Env) (domain : String) :
    ∀ (items : List (String × String)) (st : ItemsState),
      (st.acc.map ArticleRecord.slug).Nodup →
      ((runItems env domain items st).acc.map ArticleRecord.slug).Nodup
  | [], _, h => h
  | (catName, title) :: rest, st, h => by
    by_cases hs : hasSlug st.acc (slugify title) = true
    · simp only [runItems, hs, if_pos]
      exact runItems_nodup env domain rest st h
    · rw [Bool.not_eq_true] at hs
      simp only [runItems, hs, Bool.false_eq_true, if_neg, not_false_iff]
      refine runItems_nodup env domain rest _ ?_
      show ((st.acc ++ [pushedRecord (mkMeta env st.fresh domain catName title)]).map
        ArticleRecord.slug).Nodup
      rw [List.map_append]
      rw [List.nodup_append]
      refine ⟨h, List.nodup_singleton _, ?_⟩
      intro x hx hx'
      have hxs : x = slugify title := by simpa [pushedRecord, mkMeta] using hx'
      subst hxs
      exact absurd (hasSlug_iff.mpr hx) (by simp [hs])

/-- C1: `slugify` is a pure, deterministic function of the title string
only (repeated calls agree), it implements lowercase / strip / trim /
whitespace-to-hyphen / hyphen-collapse (the definition of `slugify` above),
and in particular maps "Cheap Chicken Rice" to "cheap-chicken-rice" and
"Beans & Pasta!" to "beans-pasta". -/
theorem slugify_deterministic_and_examples :
    (∀ t : String, slugify t = slugify t) ∧
    slugify "Cheap Chicken Rice" = "cheap-chicken-rice" ∧
    slugify "Beans & Pasta!" = "beans-pasta" :=
  ⟨fun _ => rfl, by decide, by decide⟩

/-- C9: `slugify` is idempotent — every output contains only kept word
characters and hyphens, with no whitespace and no hyphen runs, so a second
application changes nothing. -/
theorem slugify_idempotent : ∀ t : String, slugify (slugify t) = slugify t := by
  intro t
  show (⟨slugifyCore (slugifyCore t.data)⟩ : String) = ⟨slugifyCore t.data⟩
  rw [slugifyCore_idem]

/-- C2: the pipeline is idempotent across runs — re-running with the same
configuration, the second run (whose prior index is the first run's
output) writes no article files and leaves the index list unchanged. -/
theorem pipeline_idempotent (env1 env2 : Env) (cfg : SourceConfig)
    (prior : List ArticleRecord) :
    (runPipeline env2 cfg (runPipeline env1 cfg prior).list).list =
      (runPipeline env1 cfg prior).list ∧
    (runPipeline env2 cfg (runPipeline env1 cfg prior).list).writes = [] := by
  have hnoop : runItems env2 cfg.domain (configItems cfg)
      ⟨(runPipeline env1 cfg prior).list, [], 0⟩ =
      ⟨(runPipeline env1 cfg prior).list, [], 0⟩ :=
    runItems_noop env2 cfg.domain (configItems cfg) _
      (fun p hp => runItems_covers env1 cfg.domain (configItems cfg) ⟨prior, [], 0⟩ p hp)
  constructor
  · show (runItems env2 cfg.domain (configItems cfg)
      ⟨(runPipeline env1 cfg prior).list, [], 0⟩).acc =
      (runPipeline env1 cfg prior).list
    rw [hnoop]
  · show (runItems env2 cfg.domain (configItems cfg)
      ⟨(runPipeline env1 cfg prior).list, [], 0⟩).writes = []
    rw [hnoop]

/-- C3: when the prior list has pairwise-distinct slugs, so does the list
written at the end of a run (the skip-on-duplicate rule preserves the
invariant); and in the two-categories-with-"Tuna Wrap" scenario exactly one
record with slug "tuna-wrap" exists and exactly one file is written — the
second occurrence is skipped. -/
theorem index_slugs_unique (env : Env) (cfg : SourceConfig)
    (prior : List ArticleRecord)
    (h : (prior.map ArticleRecord.slug).Nodup) :
    ((runPipeline env cfg prior).list.map ArticleRecord.slug).Nodup ∧
    (runPipeline env tunaCfg []).list.map ArticleRecord.slug = ["tuna-wrap"] ∧
    (runPipeline env tunaCfg []).writes = ["tuna-wrap.html"] := by
  have h1 : slugify "Tuna Wrap" = "tuna-wrap" := by decide
  have h2 : ("tuna-wrap" ++ ".html" : String) = "tuna-wrap.html" := by decide
  have hcfg : configItems tunaCfg =
      [("Lunch", "Tuna Wrap"), ("Dinner", "Tuna Wrap")] := by decide
  have hs2 : hasSlug [pushedRecord (mkMeta env 0 tunaCfg.domain "Lunch" "Tuna Wrap")]
      (slugify "Tuna Wrap") = true := by
    simp [hasSlug, pushedRecord, mkMeta]
  refine ⟨runItems_nodup env cfg.domain (configItems cfg) ⟨prior, [], 0⟩ h, ?_, ?_⟩
  · show (runItems env tunaCfg.domain (configItems tunaCfg)
      ⟨[], [], 0⟩).acc.map ArticleRecord.slug = ["tuna-wrap"]
    rw [hcfg]
    simp [runItems, hasSlug, hs2, pushedRecord, mkMeta, h1]
  · show (runItems env tunaCfg.domain (configItems tunaCfg)
      ⟨[], [], 0⟩).writes = ["tuna-wrap.html"]
    rw [hcfg]
    simp [runItems, hasSlug, hs2, pushedRecord, mkMeta, h1, h2]

/-- C3 witness: the preservation theorem applied to the "Tuna Wrap"
scenario run started from the empty prior list. -/
theorem index_slugs_unique_witness :
    (([] : List ArticleRecord).map ArticleRecord.slug).Nodup ∧
    (((runPipeline constEnv tunaCfg []).list.map ArticleRecord.slug).Nodup ∧
     (runPipeline constEnv tunaCfg []).list.map ArticleRecord.slug = ["tuna-wrap"] ∧
     (runPipeline constEnv tunaCfg []).writes = ["tuna-wrap.html"]) :=
  ⟨by decide, index_slugs_unique constEnv tunaCfg [] (by decide)⟩

/-- C4: the index list is append-only across runs — running with
configuration A and then with A plus one genuinely new item (its slug not
yet in A's output) yields exactly A's list with the one new record appended
at the end, all pre-existing records unchanged. -/
theorem index_append_only (env1 env2 : Env) (cfg cfg' : SourceConfig)
    (prior : List ArticleRecord) (catName title : String)
    (hitems : configItems cfg' = configItems cfg ++ [(catName, title)])
    (hnew : slugify title ∉ (runPipeline env1 cfg prior).list.map ArticleRecord.slug) :
    (runPipeline env2 cfg' (runPipeline env1 cfg prior).list).list =
      (runPipeline env1 cfg prior).list ++
        [pushedRecord (mkMeta env2 0 cfg'.domain catName title)] ∧
    (runPipeline env2 cfg' (runPipeline env1 cfg prior).list).writes =
      [slugify title ++ ".html"] := by
  have hnoop : runItems env2 cfg'.domain (configItems cfg)
      ⟨(runPipeline env1 cfg prior).list, [], 0⟩ =
      ⟨(runPipeline env1 cfg prior).list, [], 0⟩ :=
    runItems_noop env2 cfg'.domain (configItems cfg) _
      (fun p hp => runItems_covers env1 cfg.domain (configItems cfg) ⟨prior, [], 0⟩ p hp)
  have hs : hasSlug (runPipeline env1 cfg prior).list (slugify title) = false := by
    cases hb : hasSlug (runPipeline env1 cfg prior).list (slugify title)
    · rfl
    · exact absurd (hasSlug_iff.mp hb) hnew
  constructor
  · show (runItems env2 cfg'.domain (configItems cfg')
      ⟨(runPipeline env1 cfg prior).list, [], 0⟩).acc = _
    rw [hitems, runItems_append, hnoop]
    simp [runItems, hs]
  · show (runItems env2 cfg'.domain (configItems cfg')
      ⟨(runPipeline env1 cfg prior).list, [], 0⟩).writes = _
    rw [hitems, runItems_append, hnoop]
    simp [runItems, hs]

/-- C4 witness: configuration A with one item, then A plus a new "Tuna
Wrap" item, starting from the empty prior. -/
theorem index_append_only_witness :
    configItems cfgA' = configItems cfgA ++ [("Budget", "Tuna Wrap")] ∧
    slugify "Tuna Wrap" ∉ (runPipeline constEnv cfgA []).list.map ArticleRecord.slug ∧
    ((runPipeline constEnv cfgA' (runPipeline constEnv cfgA []).list).list =
      (runPipeline constEnv cfgA []).list ++
        [pushedRecord (mkMeta constEnv 0 cfgA'.domain "Budget" "Tuna Wrap")] ∧
     (runPipeline constEnv cfgA' (runPipeline constEnv cfgA []).list).writes =
      [slugify "Tuna Wrap" ++ ".html"]) :=
  ⟨by decide, by decide,
    index_append_only constEnv constEnv cfgA cfgA' [] "Budget" "Tuna Wrap"
      (by decide) (by decide)⟩

/-- C5: if the configuration file exists but cannot be parsed, the run
aborts with exit status 1 (non-zero) and nothing is written: no index
write, no article writes, no default-source write. -/
theorem config_parse_failure_aborts (env : Env) (fs : FS)
    (h : fs.sourceFile = .corrupt) :
    (mainRun env fs).exitCode = 1 ∧ (mainRun env fs).exitCode ≠ 0 ∧
    (mainRun env fs).indexWritten = none ∧
    (mainRun env fs).articleWrites = [] ∧
    (mainRun env fs).sourceWritten = false := by
  rcases fs with ⟨sf, idxf⟩
  cases h
  simp [mainRun]

/-- C5 witness: a corrupt configuration file with no index file present. -/
theorem config_parse_failure_aborts_witness :
    (FS.mk .corrupt .missing).sourceFile = .corrupt ∧
    ((mainRun constEnv ⟨.corrupt, .missing⟩).exitCode = 1 ∧
     (mainRun constEnv ⟨.corrupt, .missing⟩).exitCode ≠ 0 ∧
     (mainRun constEnv ⟨.corrupt, .missing⟩).indexWritten = none ∧
     (mainRun constEnv ⟨.corrupt, .missing⟩).articleWrites = [] ∧
     (mainRun constEnv ⟨.corrupt, .missing⟩).sourceWritten = false) :=
  ⟨rfl, config_parse_failure_aborts constEnv ⟨.corrupt, .missing⟩ rfl⟩

/-- C7: loading the prior index tolerates corruption — whether the index
file is missing, unparsable, or parses to something whose `list` is not an
array, the run proceeds from the empty prior list and completes with exit
status 0, unlike configuration parsing. -/
theorem corrupt_index_tolerated (env : Env) (cfg : SourceConfig)
    (ifs : FileState (Option (List ArticleRecord)))
    (h : ifs = .missing ∨ ifs = .corrupt ∨ ifs = .parsed none) :
    loadPrior ⟨.parsed cfg, ifs⟩ = [] ∧
    (mainRun env ⟨.parsed cfg, ifs⟩).exitCode = 0 ∧
    (mainRun env ⟨.parsed cfg, ifs⟩).indexWritten =
      some (runPipeline env cfg []).list := by
  have hl : loadPrior ⟨.parsed cfg, ifs⟩ = [] := by
    rcases h with h | h | h <;> subst h <;> rfl
  refine ⟨hl, ?_, ?_⟩
  · simp [mainRun]
  · simp [mainRun, hl]

/-- C7 witness: a corrupt index file next to a parsed configuration. -/
theorem corrupt_index_tolerated_witness :
    ((FileState.corrupt : FileState (Option (List ArticleRecord))) = .missing ∨
     (FileState.corrupt : FileState (Option (List ArticleRecord))) = .corrupt ∨
     (FileState.corrupt : FileState (Option (List ArticleRecord))) = .parsed none) ∧
    (loadPrior ⟨.parsed emptyCatCfg, .corrupt⟩ = [] ∧
     (mainRun constEnv ⟨.parsed emptyCatCfg, .corrupt⟩).exitCode = 0 ∧
     (mainRun constEnv ⟨.parsed emptyCatCfg, .corrupt⟩).indexWritten =
       some (runPipeline constEnv emptyCatCfg []).list) :=
  ⟨Or.inr (Or.inl rfl),
    corrupt_index_tolerated constEnv emptyCatCfg .corrupt (Or.inr (Or.inl rfl))⟩

/-- C8 counterexample: with an empty `categories` array but a pre-existing
index holding one record, the run writes the index with the prior list, not
with the empty list — the claim's "list equal to the empty sequence" fails. -/
theorem empty_categories_counterexample :
    emptyCatCfg.categories = [] ∧
    (mainRun constEnv ⟨.parsed emptyCatCfg, .parsed (some [oldRec])⟩).indexWritten =
      some [oldRec] ∧
    (mainRun constEnv ⟨.parsed emptyCatCfg, .parsed (some [oldRec])⟩).indexWritten ≠
      some ([] : List ArticleRecord) := by
  refine ⟨rfl, by decide, by decide⟩

/-- C8 (amended): with an empty `categories` array the run creates no
article files and exits with status 0, and writes the index with list equal
to the loaded prior list — the empty sequence whenever the index file is
missing. -/
theorem empty_categories_run (env : Env) (fs : FS) (cfg : SourceConfig)
    (hsf : fs.sourceFile = .parsed cfg) (hcat : cfg.categories = []) :
    (mainRun env fs).articleWrites = [] ∧
    (mainRun env fs).exitCode = 0 ∧
    (mainRun env fs).indexWritten = some (loadPrior fs) ∧
    (fs.indexFile = .missing → (mainRun env fs).indexWritten = some []) := by
  have hitems : configItems cfg = [] := by
    unfold configItems
    rw [hcat]
    rfl
  rcases fs with ⟨sf, idxf⟩
  cases hsf
  have hrun : ∀ prior, runPipeline env cfg prior = ⟨prior, []⟩ := by
    intro prior
    unfold runPipeline
    rw [hitems]
    rfl
  refine ⟨?_, ?_, ?_, ?_⟩
  · simp [mainRun, hrun]
  · simp [mainRun]
  · simp [mainRun, hrun]
  · intro hidx
    cases hidx
    simp [mainRun, hrun, loadPrior]

/-- C8 amended-claim witness: empty categories with a missing index file. -/
theorem empty_categories_run_witness :
    (FS.mk (.parsed emptyCatCfg) .missing).sourceFile = .parsed emptyCatCfg ∧
    emptyCatCfg.categories = [] ∧
    ((mainRun constEnv ⟨.parsed emptyCatCfg, .missing⟩).articleWrites = [] ∧
     (mainRun constEnv ⟨.parsed emptyCatCfg, .missing⟩).exitCode = 0 ∧
     (mainRun constEnv ⟨.parsed emptyCatCfg, .missing⟩).indexWritten =
       some (loadPrior ⟨.parsed emptyCatCfg, .missing⟩) ∧
     ((FS.mk (.parsed emptyCatCfg) .missing).indexFile = .missing →
       (mainRun constEnv ⟨.parsed emptyCatCfg, .missing⟩).indexWritten = some [])) :=
  ⟨rfl, rfl, empty_categories_run constEnv ⟨.parsed emptyCatCfg, .missing⟩
    emptyCatCfg rfl rfl⟩

/-- C6: every record the pipeline leaves in the index has an excerpt of at
most 140 characters that is a prefix of the introduction sentence generated
for the record's title (granted that the loaded prior records already
satisfy this, as every pipeline-written record does). -/
theorem excerpt_invariant (env : Env) (cfg : SourceConfig)
    (prior : List ArticleRecord) (h : ∀ r ∈ prior, excerptOK r) :
    ∀ r ∈ (runPipeline env cfg prior).list, excerptOK r := by
  suffices h' : ∀ items st, (∀ r ∈ ItemsState.acc st, excerptOK r) →
      ∀ r ∈ (runItems env cfg.domain items st).acc, excerptOK r by
    exact fun r hr => h' (configItems cfg) ⟨prior, [], 0⟩ h r hr
  intro items
  induction items with
  | nil => exact fun st hst r hr => hst r hr
  | cons p rest ih =>
    rcases p with ⟨catName, title⟩
    intro st hst
    by_cases hs : hasSlug st.acc (slugify title) = true
    · simp only [runItems, hs, if_pos]
      exact ih st hst
    · rw [Bool.not_eq_true] at hs
      simp only [runItems, hs, Bool.false_eq_true, if_neg, not_false_iff]
      refine ih _ ?_
      intro r hr
      rcases List.mem_append.mp hr with h' | h'
      · exact hst r h'
      · have hrec : r = pushedRecord (mkMeta env st.fresh cfg.domain catName title) :=
          List.mem_singleton.mp h'
        subst hrec
        constructor
        · show ((buildRecipe title).intro.data.take 140).length ≤ 140
          rw [List.length_take]
          exact Nat.min_le_left ..
        · show (buildRecipe title).intro.data.take 140 <+: (buildRecipe title).intro.data
          exact ⟨(buildRecipe title).intro.data.drop 140, List.take_append_drop ..⟩

/-- C6 witness: a run of the default configuration from the empty prior
list. -/
theorem excerpt_invariant_witness :
    (∀ r ∈ ([] : List ArticleRecord), excerptOK r) ∧
    (∀ r ∈ (runPipeline constEnv defaultSrc []).list, excerptOK r) :=
  ⟨by simp, excerpt_invariant constEnv defaultSrc [] (by simp)⟩

end PlateUp
